import Mathlib

/-!
Shallow embedding of the forward-secure multisignature code in
`src/signature.rs` and `src/errors.rs` (a Rust implementation of the Pixel
signature scheme over a bilinear pairing).

Group model.  The pairing groups BG (= `SignatureGroup`, group 1), VG
(= `VerkeyGroup`, group 2) and GT all have prime order q with scalar field F.
We represent a point of BG or VG by a pair `(a, b) : R × R` over the scalar
ring `R`: `a` is the discrete logarithm of the point's prime-order-subgroup
component with respect to a fixed subgroup generator, and `b` is the
discrete logarithm of its cofactor component (the part outside the
prime-order subgroup).  The group operation is componentwise addition, the
identity (point at infinity) is `(0, 0)`, a point lies in the prime-order
subgroup exactly when `b = 0`, and the ate pairing — bilinear on the
prime-order subgroups, and only consumed there by the code — is modelled as
the product of the first components, with GT written additively (the GT
identity `1_GT` is `0`).  All theorems are stated over an arbitrary
commutative ring `R` with decidable equality; witnesses instantiate `R := ℤ`.

External collaborators (the amcl pairing library's hash-to-field
`FieldElement::from_msg_hash` and the byte serializations `to_bytes`) are,
as the spec's §1 prescribes, abstract contracts: they appear as explicit
function parameters `hashF`, `serVG`, `serBG`, so every theorem holds for
every choice of hash and serialization.

`u128` values are modelled as `ℕ`, byte strings as `List ℕ`.  A Rust panic
(out-of-bounds index) is modelled by the `none` value of an `Option` layer
around the `Result` (= `Except`) value.
-/

/-- The error enum of `src/errors.rs` (`ForwardSecureSignatureError`). -/
inductive ForwardSecureSignatureError where
  | InvalidMaxTimePeriod (T : ℕ)
  | NonPowerOfTwo (T : ℕ)
  | InvalidPath (path : List ℕ) (l : ℕ)
  | InvalidNodeNum (t : ℕ) (l : ℕ)
  | NotEnoughGenerators (n : ℕ)
  | SigkeyNotFound (t : ℕ)
  | SigkeyUpdateBackward (old_t : ℕ) (current_t : ℕ)
  | SigkeyAlreadyUpdated (t : ℕ)
deriving DecidableEq, Repr

/-- A point of either pairing group: discrete logs of its prime-order
component and of its cofactor component. -/
abbrev GroupPt (R : Type) := R × R

/-- Scalar multiplication of a point by a field element. -/
def scmul {R : Type} [CommRing R] (s : R) (p : GroupPt R) : GroupPt R :=
  (s * p.1, s * p.2)

/-- Negation of a point (`negation` in amcl_wrapper). -/
def gneg {R : Type} [CommRing R] (p : GroupPt R) : GroupPt R :=
  (-p.1, -p.2)

/-- The ate pairing of one (BG, VG) pair, in GT discrete-log form: it only
sees the prime-order components. -/
def ate_pairing {R : Type} [CommRing R] (p q : GroupPt R) : R :=
  p.1 * q.1

/-- Model of `ate_multi_pairing`: the GT product (written additively in
discrete-log form) of the pairings of the listed pairs. -/
def ate_multi_pairing {R : Type} [CommRing R] (ps : List (GroupPt R × GroupPt R)) : R :=
  (ps.map fun pq => ate_pairing pq.1 pq.2).sum

/-- Model of GT's `is_one`: the discrete log of `1_GT` is `0`. -/
def gt_is_one {R : Type} [CommRing R] [DecidableEq R] (e : R) : Bool :=
  decide (e = 0)

/-- Modelled from the spec: `GeneratorSet` lives in `util.rs`, which is not
under `src/`.  Per the spec's §3 it is the pair of the VG generator `g₂`
(field `.1` here, `gens.0` in Rust) and the vector `⟨h, h₀, h₁, …, h_ℓ⟩` of
ℓ+2 BG generators (field `.2` here, `gens.1` in Rust). -/
abbrev GeneratorSet (R : Type) := GroupPt R × List (GroupPt R)

/-- Modelled from the spec: `Sigkey` lives in `keys.rs`, which is not under
`src/`.  Per the spec's §3 a NodeSecret is a pair of the element `c` (used
in VG by `gen_sig`: `sigma_2 = c + g₂·r`) and the list `[d, e_1, …, e_k]`
of BG elements (`sig_key.0` and `sig_key.1` in Rust). -/
abbrev Sigkey (R : Type) := GroupPt R × List (GroupPt R)

/-- Modelled from the spec: `Verkey` lives in `keys.rs`, which is not under
`src/`.  Per the spec's §3 it wraps the VG element `y` (its `value`). -/
structure Verkey (R : Type) where
  value : GroupPt R
deriving DecidableEq, Repr

/-- Modelled from the spec: `Verkey::is_identity` lives in `keys.rs`, which
is not under `src/`; it reports whether the wrapped point is the group
identity. -/
def Verkey.is_identity {R : Type} [CommRing R] [DecidableEq R] (v : Verkey R) : Bool :=
  decide (v.value = ((0 : R), (0 : R)))

/-- Modelled from the spec: `Verkey::aggregate` lives in `keys.rs`, which is
not under `src/`.  Per the spec's §4.6 the aggregate verkey is the group sum
`Y = ∑ y_i`. -/
def Verkey.aggregate {R : Type} [CommRing R] (vks : List (Verkey R)) : Verkey R :=
  ⟨vks.foldl (fun acc v => acc + v.value) ((0 : R), (0 : R))⟩

/-- Modelled from the spec: `from_node_num_to_path` lives in `util.rs`,
which is not under `src/`.  Per the spec's §4.1, time periods 1 … T
(T = 2^ℓ − 1) label the nodes of the binary tree in pre-order, paths being
sequences over {1, 2} (1 = left, 2 = right); this is the recursive pre-order
path of node `t` in the tree of ℓ levels. -/
def pathOf : ℕ → ℕ → List ℕ
  | _, 0 => []
  | t, l + 1 =>
    if t ≤ 1 then []
    else if t ≤ 2 ^ l then 1 :: pathOf (t - 1) l
    else 2 :: pathOf (t - 2 ^ l) l

/-- Modelled from the spec: the range guard of `from_node_num_to_path`
(`util.rs`, not under `src/`): a period outside [1, 2^ℓ − 1] is rejected
with `InvalidNodeNum` (spec §7). -/
def from_node_num_to_path (t l : ℕ) :
    Except ForwardSecureSignatureError (List ℕ) :=
  if 1 ≤ t ∧ t ≤ 2 ^ l - 1 then .ok (pathOf t l)
  else .error (.InvalidNodeNum t l)

/-- Modelled from the spec: the path-factor accumulation of
`calculate_path_factor_using_t_l` (`util.rs`, not under `src/`): per the
spec's §4.1, `pf(t) = ∑_i b_i · h_i` where `b_i` is the i-th path bit
(1 or 2, as a scalar) and `h_i = gens.1[i+1]`; `i₀` is the index of the
generator paired with the first remaining bit, so the sum starts at
`i₀ = 2` (the position of `h₁` in `⟨h, h₀, h₁, …⟩`). -/
def pathFactor {R : Type} [CommRing R] :
    List ℕ → ℕ → GeneratorSet R → GroupPt R
  | [], _, _ => ((0 : R), (0 : R))
  | b :: rest, i, gens =>
    scmul (b : R) (gens.2.getD i ((0 : R), (0 : R))) + pathFactor rest (i + 1) gens

/-- Modelled from the spec: `calculate_path_factor_using_t_l` (`util.rs`,
not under `src/`) maps the period to its node path and accumulates the path
factor `pf(t)` over the BG generators. -/
def calculate_path_factor_using_t_l {R : Type} [CommRing R]
    (t : ℕ) (l : ℕ) (gens : GeneratorSet R) :
    Except ForwardSecureSignatureError (GroupPt R) :=
  match from_node_num_to_path t l with
  | .error e => .error e
  | .ok path => .ok (pathFactor path 2 gens)

/-- The `Signature` struct of `src/signature.rs`. -/
structure Signature (R : Type) where
  sigma_1 : GroupPt R
  sigma_2 : GroupPt R
deriving DecidableEq, Repr

/-- The little-endian 16-byte serialization of a `u128`
(`u128::to_le_bytes`). -/
def leBytes16 (t : ℕ) : List ℕ :=
  (List.range 16).map fun i => t / 256 ^ i % 256

namespace Signature

/-- `Signature::hash_message`: hash the message into the field before
signing or verification; the hash-to-field itself
(`FieldElement::from_msg_hash`) is an external contract, the parameter
`hashF`. -/
def hash_message {R : Type} (hashF : List ℕ → R) (message : List ℕ) : R :=
  hashF message

/-- `Signature::gen_sig_rand`: derive the signing nonce by hashing the
message, the serialization of `sig_key.0`, the serializations of the
elements of `sig_key.1` in order, and the little-endian bytes of `t`.  The
serializations (`to_bytes`) are the external contracts `serVG`, `serBG`. -/
def gen_sig_rand {R : Type} (hashF : List ℕ → R)
    (serVG : GroupPt R → List ℕ) (serBG : GroupPt R → List ℕ)
    (message : List ℕ) (t : ℕ) (sig_key : Sigkey R) : R :=
  hashF (message ++ serVG sig_key.1 ++ (sig_key.2.map serBG).flatten ++ leBytes16 t)

/-- `Signature::gen_sig`.  The accesses `sig_key.1[0]`,
`sig_key.1[len − 1]` and `gens.1[l + 1]` can panic in Rust; a panic is the
value `none`.  `sigma_1` is assembled exactly as in the source:
`d + multi_scalar_mul([e_l, gens.1[l+1], pf], [m, m·r, r])`. -/
def gen_sig {R : Type} [CommRing R] (hashF : List ℕ → R)
    (msg : List ℕ) (t : ℕ) (l : ℕ) (gens : GeneratorSet R)
    (sig_key : Sigkey R) (r : R) :
    Option (Except ForwardSecureSignatureError (Signature R)) :=
  match sig_key.2[0]? with
  | none => none
  | some d =>
    let m := hash_message hashF msg
    let sigma_2 := sig_key.1 + scmul r gens.1
    match sig_key.2[sig_key.2.length - 1]? with
    | none => none
    | some e_l =>
      match calculate_path_factor_using_t_l t l gens with
      | .error e => some (.error e)
      | .ok pf =>
        match gens.2[l + 1]? with
        | none => none
        | some hl1 =>
          some (.ok
            { sigma_1 := d + (scmul m e_l + (scmul (m * r) hl1 + scmul r pf))
              sigma_2 := sigma_2 })

/-- `Signature::new`: the non-deterministic constructor.  The RNG draw
`FieldElement::random_using_rng(rng)` is the explicit parameter `r`. -/
def new {R : Type} [CommRing R] (hashF : List ℕ → R)
    (msg : List ℕ) (t : ℕ) (l : ℕ) (gens : GeneratorSet R)
    (sig_key : Sigkey R) (r : R) :
    Option (Except ForwardSecureSignatureError (Signature R)) :=
  if gens.2.length < l + 2 then
    some (.error (.NotEnoughGenerators (l + 2)))
  else
    gen_sig hashF msg t l gens sig_key r

/-- `Signature::new_deterministic`: the nonce is derived by `gen_sig_rand`
instead of being drawn from an RNG. -/
def new_deterministic {R : Type} [CommRing R] (hashF : List ℕ → R)
    (serVG : GroupPt R → List ℕ) (serBG : GroupPt R → List ℕ)
    (msg : List ℕ) (t : ℕ) (l : ℕ) (gens : GeneratorSet R)
    (sig_key : Sigkey R) :
    Option (Except ForwardSecureSignatureError (Signature R)) :=
  if gens.2.length < l + 2 then
    some (.error (.NotEnoughGenerators (l + 2)))
  else
    gen_sig hashF msg t l gens sig_key (gen_sig_rand hashF serVG serBG msg t sig_key)

/-- `Signature::aggregate`: fold the componentwise group additions starting
from the identities, as the source's loop does. -/
def aggregate {R : Type} [CommRing R] (sigs : List (Signature R)) : Signature R :=
  { sigma_1 := sigs.foldl (fun acc s => acc + s.sigma_1) ((0 : R), (0 : R))
    sigma_2 := sigs.foldl (fun acc s => acc + s.sigma_2) ((0 : R), (0 : R)) }

/-- `Signature::is_identity`: true when `sigma_1` or `sigma_2` is the point
at infinity. -/
def is_identity {R : Type} [CommRing R] [DecidableEq R] (s : Signature R) : Bool :=
  decide (s.sigma_1 = ((0 : R), (0 : R))) || decide (s.sigma_2 = ((0 : R), (0 : R)))

/-- `Signature::has_correct_oder` (sic): true when both points lie in their
prime-order subgroups, i.e. have no cofactor component. -/
def has_correct_oder {R : Type} [CommRing R] [DecidableEq R] (s : Signature R) : Bool :=
  decide (s.sigma_1.2 = (0 : R)) && decide (s.sigma_2.2 = (0 : R))

/-- `Signature::verify_naked`: the multi-pairing acceptance test
`e(σ₁, −g₂) · e(h, y) · e(A, σ₂) = 1_GT` with `A = pf(t) + μ·gens.1[l+1]`.
The accesses `gens.1[0]` and `gens.1[l+1]` can panic (`none`). -/
def verify_naked {R : Type} [CommRing R] [DecidableEq R] (hashF : List ℕ → R)
    (sigma_1 sigma_2 verkey : GroupPt R)
    (msg : List ℕ) (t : ℕ) (l : ℕ) (gens : GeneratorSet R) :
    Option (Except ForwardSecureSignatureError Bool) :=
  match gens.2[0]? with
  | none => none
  | some h =>
    let g2 := gens.1
    let y := verkey
    let m := hash_message hashF msg
    match calculate_path_factor_using_t_l t l gens with
    | .error e => some (.error e)
    | .ok pf =>
      match gens.2[l + 1]? with
      | none => none
      | some hl1 =>
        let sigma_1_1 := pf + scmul m hl1
        some (.ok (gt_is_one (ate_multi_pairing
          [(sigma_1, gneg g2), (h, y), (sigma_1_1, sigma_2)])))

/-- The spec's §4.5 acceptance test, stated as written there: accept iff
`e(σ₁, g₂) = e(h, y) · e(A, σ₂)` (GT written additively in discrete-log
form).  This definition follows the spec's words; `verify_naked` above
follows the source.  Their equivalence is the refinement claim. -/
def verify_naked_spec {R : Type} [CommRing R] [DecidableEq R] (hashF : List ℕ → R)
    (sigma_1 sigma_2 verkey : GroupPt R)
    (msg : List ℕ) (t : ℕ) (l : ℕ) (gens : GeneratorSet R) :
    Option (Except ForwardSecureSignatureError Bool) :=
  match gens.2[0]? with
  | none => none
  | some h =>
    let g2 := gens.1
    let y := verkey
    let m := hash_message hashF msg
    match calculate_path_factor_using_t_l t l gens with
    | .error e => some (.error e)
    | .ok pf =>
      match gens.2[l + 1]? with
      | none => none
      | some hl1 =>
        let a := pf + scmul m hl1
        some (.ok (decide
          (ate_pairing sigma_1 g2 = ate_pairing h y + ate_pairing a sigma_2)))

/-- `Signature::verify`: generator-count check, then identity / verkey /
subgroup-order checks (a negative boolean, not an error), then the naked
pairing test. -/
def verify {R : Type} [CommRing R] [DecidableEq R] (hashF : List ℕ → R)
    (s : Signature R) (msg : List ℕ) (t : ℕ) (l : ℕ) (gens : GeneratorSet R)
    (verkey : Verkey R) :
    Option (Except ForwardSecureSignatureError Bool) :=
  if gens.2.length < l + 2 then
    some (.error (.NotEnoughGenerators (l + 2)))
  else if s.is_identity || verkey.is_identity || !s.has_correct_oder then
    some (.ok false)
  else
    verify_naked hashF s.sigma_1 s.sigma_2 verkey.value msg t l gens

/-- `Signature::verify_aggregated`: aggregate the verkeys and run the
ordinary `verify`. -/
def verify_aggregated {R : Type} [CommRing R] [DecidableEq R] (hashF : List ℕ → R)
    (s : Signature R) (msg : List ℕ) (t : ℕ) (l : ℕ)
    (ver_keys : List (Verkey R)) (gens : GeneratorSet R) :
    Option (Except ForwardSecureSignatureError Bool) :=
  verify hashF s msg t l gens (Verkey.aggregate ver_keys)

end Signature

/-- Modelled from the spec: the leaf NodeSecret held for period `t` by a
signer whose `current_t` equals `t` (`keys.rs` / `SigManager`, not under
`src/`).  Per the spec's §4.2, a derived NodeSecret is identically
distributed to one drawn directly from the trusted setup for its subtree;
for the leaf of `t` under master secret `x` (Verkey `y = x·g₂`, spec §3)
and key randomness `ρ`, that trusted-setup NodeSecret `(c, [d, e_ℓ])` is
`c = ρ·g₂`, `d = x·h + ρ·pf(t)`, `e_ℓ = ρ·h_ℓ` (the last BG generator),
the unique shape satisfying the spec's §4.2 validity contract that
signatures made with it pass `verify`. -/
def leafSigkey {R : Type} [CommRing R] (x ρ : R) (t l : ℕ)
    (gens : GeneratorSet R) : Sigkey R :=
  (scmul ρ gens.1,
    [scmul x (gens.2.getD 0 ((0 : R), (0 : R))) +
       scmul ρ (pathFactor (pathOf t l) 2 gens),
     scmul ρ (gens.2.getD (l + 1) ((0 : R), (0 : R)))])

/-- Modelled from the spec: the Verkey of the signer with master secret `x`
is `y = g₂^x` (spec §3; `keys.rs` is not under `src/`). -/
def verkeyOf {R : Type} [CommRing R] (x : R) (gens : GeneratorSet R) : Verkey R :=
  ⟨scmul x gens.1⟩

/-! Helper lemmas. -/

/-- An in-bounds optional lookup agrees with `getD` at any default. -/
theorem getElemOpt_getD {α : Type} (L : List α) (i : ℕ) (d : α)
    (h : i < L.length) : L[i]? = some (L.getD i d) := by
  induction L generalizing i with
  | nil => simp at h
  | cons a as ih =>
    cases i with
    | zero => simp
    | succ n =>
      simp only [List.getElem?_cons_succ, List.getD_cons_succ]
      exact ih n (by simpa using h)

/-- Lists of subgroup points have subgroup entries at every `getD` index. -/
theorem getD_snd_zero {R : Type} [CommRing R] (L : List (GroupPt R))
    (hbg : ∀ p ∈ L, p.2 = 0) (i : ℕ) :
    (L.getD i ((0 : R), (0 : R))).2 = 0 := by
  induction L generalizing i with
  | nil => simp [List.getD]
  | cons a as ih =>
    cases i with
    | zero => exact hbg a (by simp)
    | succ n =>
      simp only [List.getD_cons_succ]
      exact ih (fun p hp => hbg p (by simp [hp])) n

/-- The path factor of subgroup generators lies in the subgroup. -/
theorem pathFactor_snd_zero {R : Type} [CommRing R] (path : List ℕ) (i : ℕ)
    (gens : GeneratorSet R) (hbg : ∀ p ∈ gens.2, p.2 = 0) :
    (pathFactor path i gens).2 = 0 := by
  induction path generalizing i with
  | nil => rfl
  | cons b rest ih =>
    simp only [pathFactor, Prod.snd_add, scmul]
    rw [getD_snd_zero gens.2 hbg i, ih (i + 1)]
    ring

/-- For a period in range, the path factor computation succeeds on the
pre-order path. -/
theorem cpf_ok {R : Type} [CommRing R] (t l : ℕ) (gens : GeneratorSet R)
    (ht1 : 1 ≤ t) (ht2 : t ≤ 2 ^ l - 1) :
    calculate_path_factor_using_t_l t l gens =
      .ok (pathFactor (pathOf t l) 2 gens) := by
  unfold calculate_path_factor_using_t_l from_node_num_to_path
  rw [if_pos ⟨ht1, ht2⟩]

/-- The only error of the path factor computation is `InvalidNodeNum`. -/
theorem cpf_error_shape {R : Type} [CommRing R] (t l : ℕ)
    (gens : GeneratorSet R) (e : ForwardSecureSignatureError)
    (h : calculate_path_factor_using_t_l t l gens = .error e) :
    e = .InvalidNodeNum t l := by
  unfold calculate_path_factor_using_t_l from_node_num_to_path at h
  by_cases hc : 1 ≤ t ∧ t ≤ 2 ^ l - 1
  · rw [if_pos hc] at h
    exact absurd h (by simp)
  · rw [if_neg hc] at h
    simpa using h.symm

/-- `gen_sig` never reports `NotEnoughGenerators`: the generator count is
checked by its callers. -/
theorem gen_sig_no_generator_error {R : Type} [CommRing R]
    (hashF : List ℕ → R) (msg : List ℕ) (t l : ℕ) (gens : GeneratorSet R)
    (sk : Sigkey R) (r : R) (n : ℕ) :
    Signature.gen_sig hashF msg t l gens sk r ≠
      some (.error (.NotEnoughGenerators n)) := by
  unfold Signature.gen_sig
  cases sk.2[0]? with
  | none => simp
  | some d =>
    cases sk.2[sk.2.length - 1]? with
    | none => simp
    | some e_l =>
      cases hpf : calculate_path_factor_using_t_l t l gens with
      | error e =>
        intro hcon
        have he : e = .NotEnoughGenerators n := by simpa using hcon
        have := cpf_error_shape t l gens e hpf
        simp [he] at this
      | ok pf =>
        cases gens.2[l + 1]? with
        | none => simp
        | some hl1 => simp

/-- The only error of `verify_naked` is `InvalidNodeNum`. -/
theorem verify_naked_error_shape {R : Type} [CommRing R] [DecidableEq R]
    (hashF : List ℕ → R) (s1 s2 vk : GroupPt R) (msg : List ℕ) (t l : ℕ)
    (gens : GeneratorSet R) (e : ForwardSecureSignatureError)
    (h : Signature.verify_naked hashF s1 s2 vk msg t l gens = some (.error e)) :
    e = .InvalidNodeNum t l := by
  unfold Signature.verify_naked at h
  cases h0 : gens.2[0]? with
  | none =>
    rw [h0] at h
    simp at h
  | some hh =>
    rw [h0] at h
    cases hpf : calculate_path_factor_using_t_l t l gens with
    | error e2 =>
      rw [hpf] at h
      have he : e2 = e := by simpa using h
      exact he ▸ cpf_error_shape t l gens e2 hpf
    | ok pf =>
      rw [hpf] at h
      cases h1 : gens.2[l + 1]? with
      | none =>
        rw [h1] at h
        simp at h
      | some hl1 =>
        rw [h1] at h
        simp at h

/-- Folding group additions of the images of a list equals the initial value
plus the sum of the images. -/
theorem foldl_add_eq_sum {α M : Type} [AddCommMonoid M] (f : α → M)
    (L : List α) (init : M) :
    L.foldl (fun acc a => acc + f a) init = init + (L.map f).sum := by
  induction L generalizing init with
  | nil => simp
  | cons a as ih => simp [ih, add_assoc]

/-! Claim theorems. -/

/-- C2: for all inputs, the multi-pairing test implemented by `verify_naked`
(`e(σ₁, −g₂) · e(h, y) · e(A, σ₂) = 1_GT` with `A = pf(t) + H_F(m) · h_{ℓ+1}`)
accepts exactly the same inputs as the spec's naive pairing equation
`e(σ₁, g₂) = e(h, y) · e(A, σ₂)`: the two verifiers agree on every input,
errors and panics included. -/
theorem verify_naked_multipairing_eq_naive {R : Type} [CommRing R]
    [DecidableEq R] (hashF : List ℕ → R) (sigma_1 sigma_2 verkey : GroupPt R)
    (msg : List ℕ) (t l : ℕ) (gens : GeneratorSet R) :
    Signature.verify_naked hashF sigma_1 sigma_2 verkey msg t l gens =
      Signature.verify_naked_spec hashF sigma_1 sigma_2 verkey msg t l gens := by
  unfold Signature.verify_naked Signature.verify_naked_spec
  cases gens.2[0]? with
  | none => rfl
  | some h =>
    cases calculate_path_factor_using_t_l t l gens with
    | error e => rfl
    | ok pf =>
      cases gens.2[l + 1]? with
      | none => rfl
      | some hl1 =>
        simp only [Option.some.injEq, Except.ok.injEq, gt_is_one,
          ate_multi_pairing, ate_pairing, gneg, List.map_cons, List.map_nil,
          List.sum_cons, List.sum_nil, decide_eq_decide]
        constructor
        · intro hh
          linear_combination -hh
        · intro hh
          linear_combination -hh

/-- C7: `new_deterministic` is a deterministic function of
(msg, t, l, gens, sig_key): in this embedding the RNG draw of
`Signature::new` is its explicit final parameter, and `new_deterministic`
takes no such parameter — it equals `new` at the nonce derived by hashing
(`gen_sig_rand`), so any two calls on identical inputs return the same
(bit-identical) signature. -/
theorem new_deterministic_is_deterministic {R : Type} [CommRing R]
    (hashF : List ℕ → R) (serVG serBG : GroupPt R → List ℕ)
    (msg : List ℕ) (t l : ℕ) (gens : GeneratorSet R) (sig_key : Sigkey R) :
    Signature.new_deterministic hashF serVG serBG msg t l gens sig_key =
      Signature.new hashF msg t l gens sig_key
        (Signature.gen_sig_rand hashF serVG serBG msg t sig_key) := rfl

/-- C8: in deterministic mode, for a leaf signing key `(c, [d, e_ℓ])` the
nonce is the hash-to-field of the message bytes, followed by the
serializations of `c`, `d` and `e_ℓ` in order, followed by the little-endian
serialization of `t`. -/
theorem gen_sig_rand_leaf_bytes {R : Type} (hashF : List ℕ → R)
    (serVG serBG : GroupPt R → List ℕ) (m : List ℕ) (t : ℕ)
    (c d e_l : GroupPt R) :
    Signature.gen_sig_rand hashF serVG serBG m t (c, [d, e_l]) =
      hashF (m ++ serVG c ++ serBG d ++ serBG e_l ++ leBytes16 t) := by
  simp [Signature.gen_sig_rand, List.append_assoc]

/-- C4: `Signature::aggregate` is the componentwise group sum of the listed
signatures (starting from the group identities), the aggregate verkey is the
group sum of the listed verkeys, and `verify_aggregated` returns exactly the
result of the ordinary `verify` against that aggregate verkey. -/
theorem aggregate_componentwise_sum {R : Type} [CommRing R] [DecidableEq R]
    (hashF : List ℕ → R) (sigs : List (Signature R)) (s : Signature R)
    (msg : List ℕ) (t l : ℕ) (vks : List (Verkey R)) (gens : GeneratorSet R) :
    Signature.aggregate sigs =
      ⟨(sigs.map Signature.sigma_1).sum, (sigs.map Signature.sigma_2).sum⟩ ∧
    Verkey.aggregate vks = ⟨(vks.map Verkey.value).sum⟩ ∧
    Signature.verify_aggregated hashF s msg t l vks gens =
      Signature.verify hashF s msg t l gens (Verkey.aggregate vks) := by
  have h00 : ((0 : R), (0 : R)) = (0 : GroupPt R) := rfl
  refine ⟨?_, ?_, rfl⟩
  · unfold Signature.aggregate
    rw [foldl_add_eq_sum Signature.sigma_1 sigs,
      foldl_add_eq_sum Signature.sigma_2 sigs, h00, zero_add, zero_add]
  · unfold Verkey.aggregate
    rw [foldl_add_eq_sum Verkey.value vks, h00, zero_add]

/-- C6: `Signature::new` and `Signature::new_deterministic` return the error
`NotEnoughGenerators` with `n = l + 2` if and only if the GeneratorSet's BG
generator vector has fewer than `l + 2` elements (so in that case no
signature is produced). -/
theorem new_not_enough_generators_iff {R : Type} [CommRing R]
    (hashF : List ℕ → R) (serVG serBG : GroupPt R → List ℕ)
    (msg : List ℕ) (t l : ℕ) (gens : GeneratorSet R) (sig_key : Sigkey R)
    (r : R) :
    (Signature.new hashF msg t l gens sig_key r =
        some (.error (.NotEnoughGenerators (l + 2))) ↔
      gens.2.length < l + 2) ∧
    (Signature.new_deterministic hashF serVG serBG msg t l gens sig_key =
        some (.error (.NotEnoughGenerators (l + 2))) ↔
      gens.2.length < l + 2) := by
  constructor
  · unfold Signature.new
    by_cases hc : gens.2.length < l + 2
    · simp [hc]
    · rw [if_neg hc]
      simp only [hc, iff_false]
      exact gen_sig_no_generator_error hashF msg t l gens sig_key r (l + 2)
  · unfold Signature.new_deterministic
    by_cases hc : gens.2.length < l + 2
    · simp [hc]
    · rw [if_neg hc]
      simp only [hc, iff_false]
      exact gen_sig_no_generator_error hashF msg t l gens sig_key _ (l + 2)

/-- C5: with at least `l + 2` BG generators, a signature whose `σ₁` or `σ₂`
is the group identity or lies outside its prime-order subgroup makes
`verify` return `Ok(false)` — a negative boolean, not an error — and the
only errors `verify` ever raises are argument-shape errors (too few
generators, invalid t, invalid path). -/
theorem verify_rejects_bad_points_and_error_shape {R : Type} [CommRing R]
    [DecidableEq R] (hashF : List ℕ → R) (s : Signature R) (msg : List ℕ)
    (t l : ℕ) (gens : GeneratorSet R) (vk : Verkey R) :
    (¬ gens.2.length < l + 2 →
      (s.sigma_1 = ((0 : R), (0 : R)) ∨ s.sigma_2 = ((0 : R), (0 : R)) ∨
        s.sigma_1.2 ≠ 0 ∨ s.sigma_2.2 ≠ 0) →
      s.verify hashF msg t l gens vk = some (.ok false)) ∧
    (∀ e, s.verify hashF msg t l gens vk = some (.error e) →
      (∃ n, e = .NotEnoughGenerators n) ∨
      (∃ a b, e = .InvalidNodeNum a b) ∨
      (∃ p b, e = .InvalidPath p b)) := by
  constructor
  · intro hlen hbad
    unfold Signature.verify
    rw [if_neg hlen]
    have hcond : (s.is_identity || vk.is_identity || !s.has_correct_oder) = true := by
      rcases hbad with h | h | h | h
      · simp [Signature.is_identity, h]
      · simp [Signature.is_identity, h]
      · simp [Signature.has_correct_oder, h]
      · simp [Signature.has_correct_oder, h]
    rw [if_pos hcond]
  · intro e he
    unfold Signature.verify at he
    by_cases hlen : gens.2.length < l + 2
    · rw [if_pos hlen] at he
      exact Or.inl ⟨l + 2, by simpa using he.symm⟩
    · rw [if_neg hlen] at he
      by_cases hcond : (s.is_identity || vk.is_identity || !s.has_correct_oder) = true
      · rw [if_pos hcond] at he
        simp at he
      · rw [if_neg hcond] at he
        exact Or.inr (Or.inl ⟨t, l,
          verify_naked_error_shape hashF s.sigma_1 s.sigma_2 vk.value msg t l
            gens e he⟩)

/-- C9: with at least `l + 2` BG generators, `verify` returns `Ok(false)`
whenever the supplied verkey is the group identity element, in addition to
the identity and subgroup checks on `σ₁` and `σ₂`. -/
theorem verify_rejects_identity_verkey {R : Type} [CommRing R]
    [DecidableEq R] (hashF : List ℕ → R) (s : Signature R) (msg : List ℕ)
    (t l : ℕ) (gens : GeneratorSet R) (vk : Verkey R)
    (hlen : ¬ gens.2.length < l + 2)
    (hvk : vk.value = ((0 : R), (0 : R))) :
    s.verify hashF msg t l gens vk = some (.ok false) := by
  unfold Signature.verify
  rw [if_neg hlen]
  have hcond : (s.is_identity || vk.is_identity || !s.has_correct_oder) = true := by
    simp [Verkey.is_identity, hvk]
  rw [if_pos hcond]

/-- Regrouping of the σ₁ randomized terms: the source's multi-scalar
combination `μ·e_ℓ + (μ·r)·h_{ℓ+1} + r·pf` equals the spec-shaped
`μ·e_ℓ + r·(pf + μ·h_{ℓ+1})`. -/
theorem scmul_regroup {R : Type} [CommRing R] (m r : R)
    (e_l hl1 pf : GroupPt R) :
    scmul m e_l + (scmul (m * r) hl1 + scmul r pf) =
      scmul m e_l + scmul r (pf + scmul m hl1) := by
  simp only [scmul, Prod.mk_add_mk, Prod.fst_add, Prod.snd_add, Prod.mk.injEq]
  constructor <;> ring

/-- C3: for a non-empty signing-key list and a period whose path factor is
defined, `gen_sig` returns `σ₂ = c + r·g₂` and
`σ₁ = d + μ·e_ℓ + r·(pf(t) + μ·h_{ℓ+1})`, where `d` is the first and `e_ℓ`
the last element of the key list and `μ = H_F(m)`. -/
theorem gen_sig_formula {R : Type} [CommRing R] (hashF : List ℕ → R)
    (msg : List ℕ) (t l : ℕ) (gens : GeneratorSet R) (c d : GroupPt R)
    (ds : List (GroupPt R)) (r : R) (pf e_l hl1 : GroupPt R)
    (hpf : calculate_path_factor_using_t_l t l gens = .ok pf)
    (hel : (d :: ds)[(d :: ds).length - 1]? = some e_l)
    (hhl1 : gens.2[l + 1]? = some hl1) :
    Signature.gen_sig hashF msg t l gens (c, d :: ds) r =
      some (.ok
        { sigma_1 := d + (scmul (Signature.hash_message hashF msg) e_l +
            scmul r (pf + scmul (Signature.hash_message hashF msg) hl1))
          sigma_2 := c + scmul r gens.1 }) := by
  unfold Signature.gen_sig
  have h0 : (c, d :: ds).2[0]? = some d := by simp
  rw [h0, show (c, d :: ds).2[(c, d :: ds).2.length - 1]? =
      (d :: ds)[(d :: ds).length - 1]? from rfl, hel, hpf, hhl1]
  show some (Except.ok (Signature.mk
      (d + (scmul (Signature.hash_message hashF msg) e_l +
        (scmul (Signature.hash_message hashF msg * r) hl1 + scmul r pf)))
      (c + scmul r gens.1))) = _
  rw [scmul_regroup]

/-- C10: `gen_sig` indexes the key list at 0 and `len − 1`: with an empty
key list it panics (`none`) rather than returning an error — and so do `new`
(once past its generator-count check) and `new_deterministic` — while with a
non-empty key list and `l + 1` in range of the generators it never
panics. -/
theorem gen_sig_empty_key_panics {R : Type} [CommRing R]
    (hashF : List ℕ → R) (serVG serBG : GroupPt R → List ℕ)
    (msg : List ℕ) (t l : ℕ) (gens : GeneratorSet R) (c : GroupPt R)
    (r : R) :
    Signature.gen_sig hashF msg t l gens (c, []) r = none ∧
    (¬ gens.2.length < l + 2 →
      Signature.new hashF msg t l gens (c, []) r = none ∧
      Signature.new_deterministic hashF serVG serBG msg t l gens (c, []) =
        none) ∧
    (∀ d ds, l + 1 < gens.2.length →
      Signature.gen_sig hashF msg t l gens (c, d :: ds) r ≠ none) := by
  have hempty : ∀ r0 : R, Signature.gen_sig hashF msg t l gens (c, []) r0 = none :=
    fun r0 => rfl
  refine ⟨hempty r, fun hlen => ?_, fun d ds hl1 => ?_⟩
  · constructor
    · unfold Signature.new
      rw [if_neg hlen, hempty r]
    · unfold Signature.new_deterministic
      rw [if_neg hlen, hempty _]
  · unfold Signature.gen_sig
    have h0 : (c, d :: ds).2[0]? = some d := by simp
    rw [h0]
    simp only
    have hlast : (c, d :: ds).2[(c, d :: ds).2.length - 1]? =
        some ((d :: ds).getD ((d :: ds).length - 1) ((0 : R), (0 : R))) :=
      getElemOpt_getD (d :: ds) ((d :: ds).length - 1) _ (by simp)
    rw [hlast]
    cases hpf : calculate_path_factor_using_t_l t l gens with
    | error e => simp
    | ok pf =>
      rw [getElemOpt_getD gens.2 (l + 1) ((0 : R), (0 : R)) hl1]
      simp

/-- `verify` reduces to `verify_naked` once the generator count and the
identity/subgroup screens pass. -/
theorem verify_unfold_naked {R : Type} [CommRing R] [DecidableEq R]
    (hashF : List ℕ → R) (s : Signature R) (msg : List ℕ) (t l : ℕ)
    (gens : GeneratorSet R) (vk : Verkey R)
    (hlen : ¬ gens.2.length < l + 2) (hid : s.is_identity = false)
    (hvk : vk.is_identity = false) (hord : s.has_correct_oder = true) :
    s.verify hashF msg t l gens vk =
      Signature.verify_naked hashF s.sigma_1 s.sigma_2 vk.value msg t l gens := by
  unfold Signature.verify
  rw [if_neg hlen, hid, hvk, hord]
  simp

/-- `verify_naked` evaluated when its lookups succeed. -/
theorem verify_naked_eval {R : Type} [CommRing R] [DecidableEq R]
    (hashF : List ℕ → R) (s1 s2 vkv : GroupPt R) (msg : List ℕ) (t l : ℕ)
    (gens : GeneratorSet R) (h0v p hlv : GroupPt R)
    (hget0 : gens.2[0]? = some h0v)
    (hpf : calculate_path_factor_using_t_l t l gens = .ok p)
    (hgetl : gens.2[l + 1]? = some hlv) :
    Signature.verify_naked hashF s1 s2 vkv msg t l gens =
      some (.ok (gt_is_one (ate_multi_pairing
        [(s1, gneg gens.1), (h0v, vkv),
         (p + scmul (Signature.hash_message hashF msg) hlv, s2)]))) := by
  unfold Signature.verify_naked
  rw [hget0, hpf, hgetl]

/-- C1: with T + 1 = 2^ℓ a power of two, a period t ∈ [1, T], subgroup
generators and at least ℓ+2 of them, the signature produced by
`Signature::new` (and hence, with the hash-derived nonce, by
`new_deterministic`) on (m, t) using the leaf signing key held for period t
is accepted by `verify` under the signer's Verkey `y = x·g₂` with the same
GeneratorSet, provided neither signature point nor the verkey degenerates to
the group identity. -/
theorem sign_then_verify_accepts {R : Type} [CommRing R] [DecidableEq R]
    (hashF : List ℕ → R) (msg : List ℕ) (t l : ℕ) (gens : GeneratorSet R)
    (x ρ r : R) (sig : Signature R)
    (hg2 : gens.1.2 = 0) (hbg : ∀ p ∈ gens.2, p.2 = 0)
    (hlen : l + 2 ≤ gens.2.length)
    (ht1 : 1 ≤ t) (ht2 : t ≤ 2 ^ l - 1)
    (hsig : Signature.new hashF msg t l gens (leafSigkey x ρ t l gens) r =
      some (.ok sig))
    (h1 : sig.sigma_1 ≠ ((0 : R), (0 : R)))
    (h2 : sig.sigma_2 ≠ ((0 : R), (0 : R)))
    (hy : scmul x gens.1 ≠ ((0 : R), (0 : R))) :
    sig.verify hashF msg t l gens (verkeyOf x gens) = some (.ok true) := by
  have hnlt : ¬ gens.2.length < l + 2 := by omega
  have h0lt : 0 < gens.2.length := by omega
  have hl1lt : l + 1 < gens.2.length := by omega
  have hpf : calculate_path_factor_using_t_l t l gens =
      .ok (pathFactor (pathOf t l) 2 gens) := cpf_ok t l gens ht1 ht2
  have hget0 : gens.2[0]? = some (gens.2.getD 0 ((0 : R), (0 : R))) :=
    getElemOpt_getD gens.2 0 _ h0lt
  have hgetl : gens.2[l + 1]? = some (gens.2.getD (l + 1) ((0 : R), (0 : R))) :=
    getElemOpt_getD gens.2 (l + 1) _ hl1lt
  have hh0z : (gens.2.getD 0 ((0 : R), (0 : R))).2 = 0 := getD_snd_zero gens.2 hbg 0
  have hhlz : (gens.2.getD (l + 1) ((0 : R), (0 : R))).2 = 0 :=
    getD_snd_zero gens.2 hbg (l + 1)
  have hpz : (pathFactor (pathOf t l) 2 gens).2 = 0 :=
    pathFactor_snd_zero (pathOf t l) 2 gens hbg
  have hnew : Signature.new hashF msg t l gens (leafSigkey x ρ t l gens) r =
      some (.ok (Signature.mk
        ((scmul x (gens.2.getD 0 ((0 : R), (0 : R))) +
            scmul ρ (pathFactor (pathOf t l) 2 gens)) +
          (scmul (Signature.hash_message hashF msg)
              (scmul ρ (gens.2.getD (l + 1) ((0 : R), (0 : R)))) +
            scmul r (pathFactor (pathOf t l) 2 gens +
              scmul (Signature.hash_message hashF msg)
                (gens.2.getD (l + 1) ((0 : R), (0 : R))))))
        (scmul ρ gens.1 + scmul r gens.1))) := by
    unfold Signature.new
    rw [if_neg hnlt]
    exact gen_sig_formula hashF msg t l gens (scmul ρ gens.1)
      (scmul x (gens.2.getD 0 ((0 : R), (0 : R))) +
        scmul ρ (pathFactor (pathOf t l) 2 gens))
      [scmul ρ (gens.2.getD (l + 1) ((0 : R), (0 : R)))] r
      (pathFactor (pathOf t l) 2 gens)
      (scmul ρ (gens.2.getD (l + 1) ((0 : R), (0 : R))))
      (gens.2.getD (l + 1) ((0 : R), (0 : R))) hpf (by simp) hgetl
  rw [hnew] at hsig
  have hsigeq := Option.some.inj hsig
  have hsigeq2 := Except.ok.inj hsigeq
  rw [← hsigeq2] at h1 h2 ⊢
  have hid : (Signature.mk
      ((scmul x (gens.2.getD 0 ((0 : R), (0 : R))) +
          scmul ρ (pathFactor (pathOf t l) 2 gens)) +
        (scmul (Signature.hash_message hashF msg)
            (scmul ρ (gens.2.getD (l + 1) ((0 : R), (0 : R)))) +
          scmul r (pathFactor (pathOf t l) 2 gens +
            scmul (Signature.hash_message hashF msg)
              (gens.2.getD (l + 1) ((0 : R), (0 : R))))))
      (scmul ρ gens.1 + scmul r gens.1) : Signature R).is_identity = false := by
    simp only [Signature.is_identity, Bool.or_eq_false_iff, decide_eq_false_iff_not]
    exact ⟨h1, h2⟩
  have hord : (Signature.mk
      ((scmul x (gens.2.getD 0 ((0 : R), (0 : R))) +
          scmul ρ (pathFactor (pathOf t l) 2 gens)) +
        (scmul (Signature.hash_message hashF msg)
            (scmul ρ (gens.2.getD (l + 1) ((0 : R), (0 : R)))) +
          scmul r (pathFactor (pathOf t l) 2 gens +
            scmul (Signature.hash_message hashF msg)
              (gens.2.getD (l + 1) ((0 : R), (0 : R))))))
      (scmul ρ gens.1 + scmul r gens.1) : Signature R).has_correct_oder = true := by
    simp only [Signature.has_correct_oder, Bool.and_eq_true, decide_eq_true_eq]
    constructor
    · simp only [Prod.snd_add, scmul]
      rw [hh0z, hhlz, hpz]
      ring
    · simp only [Prod.snd_add, scmul]
      rw [hg2]
      ring
  have hvk : (verkeyOf x gens).is_identity = false := by
    simp only [verkeyOf, Verkey.is_identity, decide_eq_false_iff_not]
    exact hy
  rw [verify_unfold_naked hashF _ msg t l gens (verkeyOf x gens) hnlt hid hvk hord]
  rw [verify_naked_eval hashF _ _ _ msg t l gens _ _ _ hget0 hpf hgetl]
  have hzero : ate_multi_pairing
      [(((scmul x (gens.2.getD 0 ((0 : R), (0 : R))) +
            scmul ρ (pathFactor (pathOf t l) 2 gens)) +
          (scmul (Signature.hash_message hashF msg)
              (scmul ρ (gens.2.getD (l + 1) ((0 : R), (0 : R)))) +
            scmul r (pathFactor (pathOf t l) 2 gens +
              scmul (Signature.hash_message hashF msg)
                (gens.2.getD (l + 1) ((0 : R), (0 : R)))))), gneg gens.1),
       (gens.2.getD 0 ((0 : R), (0 : R)), (verkeyOf x gens).value),
       (pathFactor (pathOf t l) 2 gens +
          scmul (Signature.hash_message hashF msg)
            (gens.2.getD (l + 1) ((0 : R), (0 : R))),
        scmul ρ gens.1 + scmul r gens.1)] = 0 := by
    simp only [ate_multi_pairing, ate_pairing, gneg, verkeyOf, scmul,
      Prod.fst_add, List.map_cons, List.map_nil, List.sum_cons, List.sum_nil]
    ring
  rw [hzero]
  simp [gt_is_one]

/-- Witness for C1: over ℤ, with ℓ = 2, t = 2, four subgroup generators all
`(1, 0)`, master secret 1, key randomness 1 and nonce 1, the produced
signature `((5,0),(2,0))` verifies. -/
theorem sign_then_verify_accepts_witness :
    Signature.verify (fun _ => (1 : ℤ)) ⟨(5, 0), (2, 0)⟩ [] 2 2
      ((1, 0), [(1, 0), (1, 0), (1, 0), (1, 0)])
      (verkeyOf 1 ((1, 0), [(1, 0), (1, 0), (1, 0), (1, 0)])) =
      some (.ok true) :=
  sign_then_verify_accepts (fun _ => (1 : ℤ)) [] 2 2
    ((1, 0), [(1, 0), (1, 0), (1, 0), (1, 0)]) 1 1 1 ⟨(5, 0), (2, 0)⟩
    rfl (by decide) (by decide) (by decide) (by decide) rfl
    (by decide) (by decide) (by decide)

/-- Witness for C3: `gen_sig` over ℤ at t = 2, ℓ = 2, key
`((3,0), [(2,0),(7,0)])`, nonce 5 returns exactly the claimed σ₁ and σ₂. -/
theorem gen_sig_formula_witness :
    Signature.gen_sig (fun _ => (1 : ℤ)) [] 2 2
      ((1, 0), [(1, 0), (1, 0), (1, 0), (1, 0)]) ((3, 0), [(2, 0), (7, 0)]) 5 =
      some (.ok
        { sigma_1 := (2, 0) +
            (scmul (Signature.hash_message (fun _ => (1 : ℤ)) []) (7, 0) +
              scmul 5 ((1, 0) +
                scmul (Signature.hash_message (fun _ => (1 : ℤ)) []) (1, 0)))
          sigma_2 := (3, 0) + scmul 5 (1, 0) }) :=
  gen_sig_formula (fun _ => (1 : ℤ)) [] 2 2
    ((1, 0), [(1, 0), (1, 0), (1, 0), (1, 0)]) (3, 0) (2, 0) [(7, 0)] 5
    (1, 0) (7, 0) (1, 0) rfl (by decide) (by decide)

/-- Witness for C5: over ℤ with four generators, a signature whose σ₁ is the
identity point is rejected with `Ok(false)`. -/
theorem verify_rejects_bad_points_witness :
    Signature.verify (fun _ => (1 : ℤ)) ⟨(0, 0), (1, 0)⟩ [] 1 2
      ((1, 0), [(1, 0), (1, 0), (1, 0), (1, 0)]) ⟨(1, 0)⟩ = some (.ok false) :=
  (verify_rejects_bad_points_and_error_shape (fun _ => (1 : ℤ))
    ⟨(0, 0), (1, 0)⟩ [] 1 2 ((1, 0), [(1, 0), (1, 0), (1, 0), (1, 0)])
    ⟨(1, 0)⟩).1 (by decide) (Or.inl rfl)

/-- Witness for C9: over ℤ with four generators, an identity verkey makes
`verify` return `Ok(false)`. -/
theorem verify_rejects_identity_verkey_witness :
    Signature.verify (fun _ => (1 : ℤ)) ⟨(1, 0), (1, 0)⟩ [] 1 2
      ((1, 0), [(1, 0), (1, 0), (1, 0), (1, 0)]) ⟨(0, 0)⟩ = some (.ok false) :=
  verify_rejects_identity_verkey (fun _ => (1 : ℤ)) ⟨(1, 0), (1, 0)⟩ [] 1 2
    ((1, 0), [(1, 0), (1, 0), (1, 0), (1, 0)]) ⟨(0, 0)⟩ (by decide) rfl

/-- Witness for C10: over ℤ with four generators, `new` on an empty-list
signing key panics (`none`), while `gen_sig` on a one-element key list does
not. -/
theorem gen_sig_empty_key_panics_witness :
    Signature.new (fun _ => (1 : ℤ)) [] 2 2
        ((1, 0), [(1, 0), (1, 0), (1, 0), (1, 0)]) ((1, 0), []) 1 = none ∧
    Signature.gen_sig (fun _ => (1 : ℤ)) [] 2 2
        ((1, 0), [(1, 0), (1, 0), (1, 0), (1, 0)]) ((1, 0), [(1, 0)]) 1 ≠
      none :=
  ⟨((gen_sig_empty_key_panics (fun _ => (1 : ℤ)) (fun _ => []) (fun _ => [])
      [] 2 2 ((1, 0), [(1, 0), (1, 0), (1, 0), (1, 0)]) (1, 0) 1).2.1
      (by decide)).1,
   (gen_sig_empty_key_panics (fun _ => (1 : ℤ)) (fun _ => []) (fun _ => [])
      [] 2 2 ((1, 0), [(1, 0), (1, 0), (1, 0), (1, 0)]) (1, 0) 1).2.2
      (1, 0) [] (by decide)⟩
